import Mathlib

/-!
A URL-pattern request router, modelled from its specification.

The repository's Go sources register handlers on the gorilla/mux router and
on net/http's default router; the routers themselves are library code that is
not part of the repository's source tree.  Following the specification, this
file embeds the router core — pattern compiler, matcher, route table,
resolution — as executable Lean definitions and proves the specification's
claims about them.
-/

namespace Router

/-! ## Capture-constraint regular expressions

Modelled from the spec: a variable segment `{name:regex}` carries a regex
capture constraint, and the default constraint is `[^/]+`.  The regex engine
of the Go standard library is not in the source tree; we model a minimal
regex language (character, wildcard, character class, concatenation,
alternation, star) with Brzozowski-derivative matching. -/
inductive Rgx : Type where
  | fail : Rgx
  | eps : Rgx
  | cls (neg : Bool) (cs : List Char) : Rgx
  | cat (a b : Rgx) : Rgx
  | alt (a b : Rgx) : Rgx
  | star (a : Rgx) : Rgx
  deriving DecidableEq, Repr

/-- Does a character class (negated or not) accept character `c`? -/
def clsMatch (neg : Bool) (cs : List Char) (c : Char) : Bool :=
  if neg then !(cs.contains c) else cs.contains c

/-- Does the regex accept the empty string? -/
def Rgx.nullable : Rgx → Bool
  | .fail => false
  | .eps => true
  | .cls _ _ => false
  | .cat a b => a.nullable && b.nullable
  | .alt a b => a.nullable || b.nullable
  | .star _ => true

/-- Brzozowski derivative of a regex by a character. -/
def Rgx.deriv : Rgx → Char → Rgx
  | .fail, _ => .fail
  | .eps, _ => .fail
  | .cls neg cs, c => if clsMatch neg cs c then .eps else .fail
  | .cat a b, c =>
      if a.nullable then .alt (.cat (a.deriv c) b) (b.deriv c)
      else .cat (a.deriv c) b
  | .alt a b, c => .alt (a.deriv c) (b.deriv c)
  | .star a, c => .cat (a.deriv c) (.star a)

/-- Full-string regex matching by iterated derivatives. -/
def Rgx.rmatch (r : Rgx) (s : List Char) : Bool :=
  (s.foldl Rgx.deriv r).nullable

/-- `r+` is `r` followed by `r*`. -/
def Rgx.plus (r : Rgx) : Rgx := .cat r (.star r)

/-- The default capture constraint `[^/]+`: one or more non-slash characters. -/
def defaultRgx : Rgx := Rgx.plus (.cls true ['/'])

/-- The language of a regex, as an inductive predicate. -/
inductive RLang : Rgx → List Char → Prop where
  | eps : RLang .eps []
  | cls {neg : Bool} {cs : List Char} {c : Char} :
      clsMatch neg cs c = true → RLang (.cls neg cs) [c]
  | catI {a b : Rgx} {s t : List Char} :
      RLang a s → RLang b t → RLang (.cat a b) (s ++ t)
  | altL {a b : Rgx} {s : List Char} : RLang a s → RLang (.alt a b) s
  | altR {a b : Rgx} {s : List Char} : RLang b s → RLang (.alt a b) s
  | starNil {a : Rgx} : RLang (.star a) []
  | starCons {a : Rgx} {s t : List Char} :
      RLang a s → RLang (.star a) t → RLang (.star a) (s ++ t)

theorem nullable_sound : ∀ r : Rgx, r.nullable = true → RLang r [] := by
  intro r h
  induction r with
  | fail => simp [Rgx.nullable] at h
  | eps => exact .eps
  | cls neg cs => simp [Rgx.nullable] at h
  | cat a b iha ihb =>
      simp [Rgx.nullable] at h
      exact (List.nil_append ([] : List Char)) ▸ RLang.catI (iha h.1) (ihb h.2)
  | alt a b iha ihb =>
      simp [Rgx.nullable] at h
      rcases h with h | h
      · exact .altL (iha h)
      · exact .altR (ihb h)
  | star a _ => exact .starNil

theorem deriv_sound : ∀ (r : Rgx) (c : Char) (s : List Char),
    RLang (r.deriv c) s → RLang r (c :: s) := by
  intro r
  induction r with
  | fail => intro c s h; cases h
  | eps => intro c s h; cases h
  | cls neg cs =>
      intro c s h
      by_cases hm : clsMatch neg cs c = true
      · simp [Rgx.deriv, hm] at h
        cases h
        exact .cls hm
      · simp [Rgx.deriv, hm] at h
        cases h
  | cat a b iha ihb =>
      intro c s h
      by_cases hn : a.nullable = true
      · simp [Rgx.deriv, hn] at h
        cases h with
        | altL h1 =>
            cases h1 with
            | catI ha hb =>
                rename_i s1 s2
                exact (List.cons_append c s1 s2) ▸ RLang.catI (iha c s1 ha) hb
        | altR h1 =>
            have := nullable_sound a hn
            exact (List.nil_append (c :: s)) ▸ RLang.catI this (ihb c s h1)
      · simp [Rgx.deriv, hn] at h
        cases h with
        | catI ha hb =>
            rename_i s1 s2
            exact (List.cons_append c s1 s2) ▸ RLang.catI (iha c s1 ha) hb
  | alt a b iha ihb =>
      intro c s h
      cases h with
      | altL h1 => exact .altL (iha c s h1)
      | altR h1 => exact .altR (ihb c s h1)
  | star a iha =>
      intro c s h
      cases h with
      | catI ha hb =>
          rename_i s1 s2
          exact (List.cons_append c s1 s2) ▸ RLang.starCons (iha c s1 ha) hb

theorem rmatch_sound : ∀ (s : List Char) (r : Rgx),
    r.rmatch s = true → RLang r s := by
  intro s
  induction s with
  | nil => intro r h; exact nullable_sound r h
  | cons c cs ih =>
      intro r h
      exact deriv_sound r c cs (ih (r.deriv c) h)

/-- Members of a starred class language all satisfy the class. -/
theorem star_cls_chars {neg : Bool} {cs : List Char} :
    ∀ {s : List Char}, RLang (.star (.cls neg cs)) s →
      ∀ c ∈ s, clsMatch neg cs c = true := by
  intro s h
  generalize hr : Rgx.star (Rgx.cls neg cs) = r at h
  induction h with
  | eps => intro c hc; cases hc
  | cls _ => cases hr
  | catI _ _ _ _ => cases hr
  | altL _ _ => cases hr
  | altR _ _ => cases hr
  | starNil => intro c hc; cases hc
  | starCons h1 _ ih1 ih2 =>
      cases hr
      intro c hc
      rcases List.mem_append.mp hc with hc | hc
      · cases h1 with
        | cls hm =>
            rcases List.mem_singleton.mp hc with rfl
            exact hm
      · exact ih2 rfl c hc

/-- A string accepted by the default constraint `[^/]+` is non-empty and
slash-free. -/
theorem defaultRgx_chars {s : List Char} (h : defaultRgx.rmatch s = true) :
    s ≠ [] ∧ ∀ c ∈ s, c ≠ '/' := by
  have hl := rmatch_sound s defaultRgx h
  cases hl with
  | catI h1 h2 =>
      rename_i s1 s2
      cases h1 with
      | cls hm =>
          rename_i c
          constructor
          · simp
          · intro d hd
            rcases List.mem_append.mp hd with hd | hd
            · rcases List.mem_singleton.mp hd with rfl
              simp [clsMatch] at hm
              exact hm
            · have := star_cls_chars h2 d hd
              simp [clsMatch] at this
              exact this

/-! ## Regex parsing

Modelled from the spec: compilation fails with `CompileError` when "a regex
constraint fails to parse".  The concrete syntax: plain characters, `.` for
any character, `[...]` and `[^...]` character classes, `\c` escapes, and the
postfix quantifiers `*`, `+`, `?`.  Parsing fails on an unclosed class, a
quantifier with no preceding atom, or a trailing backslash. -/
inductive Tok : Type where
  | atom (r : Rgx) : Tok
  | star : Tok
  | plus : Tok
  | opt : Tok
  deriving DecidableEq, Repr

/-- Read a character-class body up to the closing `]`; `none` on unclosed. -/
def readClass : List Char → List Char → Option (List Char × List Char)
  | [], _ => none
  | c :: rest, acc =>
      if c = ']' then some (acc.reverse, rest) else readClass rest (c :: acc)

theorem readClass_length : ∀ (l acc cs rest : List Char),
    readClass l acc = some (cs, rest) → rest.length < l.length := by
  intro l
  induction l with
  | nil => intro acc cs rest h; simp [readClass] at h
  | cons c l ih =>
      intro acc cs rest h
      by_cases hc : c = ']'
      · subst hc
        simp [readClass] at h
        rcases h with ⟨-, rfl⟩
        simp
      · simp only [readClass, if_neg hc] at h
        exact Nat.lt_succ_of_lt (ih (c :: acc) cs rest h)

/-- Lexer for the regex concrete syntax. -/
def tokenize : List Char → Option (List Tok)
  | [] => some []
  | '*' :: rest => (tokenize rest).map (Tok.star :: ·)
  | '+' :: rest => (tokenize rest).map (Tok.plus :: ·)
  | '?' :: rest => (tokenize rest).map (Tok.opt :: ·)
  | '.' :: rest => (tokenize rest).map (Tok.atom (.cls true []) :: ·)
  | '\\' :: c :: rest => (tokenize rest).map (Tok.atom (.cls false [c]) :: ·)
  | ['\\'] => none
  | '[' :: '^' :: rest =>
      match h : readClass rest [] with
      | some (cs, rest2) => (tokenize rest2).map (Tok.atom (.cls true cs) :: ·)
      | none => none
  | '[' :: rest =>
      match h : readClass rest [] with
      | some (cs, rest2) => (tokenize rest2).map (Tok.atom (.cls false cs) :: ·)
      | none => none
  | c :: rest => (tokenize rest).map (Tok.atom (.cls false [c]) :: ·)
  termination_by l => l.length
  decreasing_by
    all_goals simp_wf
    all_goals first
      | omega
      | (have hlen := readClass_length _ _ _ _ (by assumption); omega)

/-- Assemble tokens into a regex; `done` is the concatenation built so far
and `last` the pending atom a quantifier may still apply to.  Fails on a
quantifier with nothing to apply to. -/
def toksToRgx : Rgx → Option Rgx → List Tok → Option Rgx
  | done, none, [] => some done
  | done, some a, [] => some (.cat done a)
  | done, none, .atom r :: ts => toksToRgx done (some r) ts
  | done, some a, .atom r :: ts => toksToRgx (.cat done a) (some r) ts
  | _, none, .star :: _ => none
  | done, some a, .star :: ts => toksToRgx (.cat done (.star a)) none ts
  | _, none, .plus :: _ => none
  | done, some a, .plus :: ts => toksToRgx (.cat done (.plus a)) none ts
  | _, none, .opt :: _ => none
  | done, some a, .opt :: ts => toksToRgx (.cat done (.alt a .eps)) none ts

/-- Parse a regex constraint string; `none` when it fails to parse. -/
def parseRegex (s : String) : Option Rgx :=
  (tokenize s.data).bind (toksToRgx .eps none)

/-! ## URL decoding

Modelled from the spec: a captured variable value is recorded URL-decoded.
Percent-decoding: `%XY` with two hex digits becomes the character with code
`16*X + Y`; malformed escapes pass through unchanged. -/
def hexVal (c : Char) : Option Nat :=
  if '0' ≤ c ∧ c ≤ '9' then some (c.toNat - '0'.toNat)
  else if 'a' ≤ c ∧ c ≤ 'f' then some (c.toNat - 'a'.toNat + 10)
  else if 'A' ≤ c ∧ c ≤ 'F' then some (c.toNat - 'A'.toNat + 10)
  else none

def urlDecodeAux : List Char → List Char
  | [] => []
  | '%' :: a :: b :: rest =>
      match hexVal a, hexVal b with
      | some x, some y => Char.ofNat (16 * x + y) :: urlDecodeAux rest
      | _, _ => '%' :: urlDecodeAux (a :: b :: rest)
  | c :: rest => c :: urlDecodeAux rest

def urlDecode (s : String) : String := String.mk (urlDecodeAux s.data)

/-- Decoding never produces the empty string from a non-empty one. -/
theorem urlDecodeAux_ne_nil : ∀ (l : List Char), l ≠ [] → urlDecodeAux l ≠ [] := by
  intro l hl
  rw [urlDecodeAux.eq_def]
  split
  · exact absurd rfl hl
  · split <;> simp
  · simp

/-! ## Pattern compiler

Modelled from the spec: `Compile(template) -> RoutePattern | CompileError`.
A template is `/`-separated; `{name}` is a variable with the default
constraint `[^/]+`; `{name:regex}` carries an explicit constraint; anything
else is a literal segment matched verbatim. -/
inductive Segment : Type where
  | lit (text : String) : Segment
  | var (name : String) (re : Option Rgx) : Segment
  deriving DecidableEq, Repr

inductive CompileError : Type where
  | emptyTemplate : CompileError
  | dupVar (name : String) : CompileError
  | badRegex (re : String) : CompileError
  deriving DecidableEq, Repr

/-- Split `{name:regex}` content at the first colon. -/
def splitNameRe : List Char → List Char × Option (List Char)
  | [] => ([], none)
  | c :: rest =>
      if c = ':' then ([], some rest)
      else
        let p := splitNameRe rest
        (c :: p.1, p.2)

/-- Split a character list at every occurrence of `sep`, keeping empty
parts, as Go's strings.Split does. -/
def splitOnChar (sep : Char) : List Char → List (List Char)
  | [] => [[]]
  | c :: rest =>
      if c = sep then [] :: splitOnChar sep rest
      else
        match splitOnChar sep rest with
        | h :: t => (c :: h) :: t
        | [] => [[c]]

/-- The `/`-separated segment strings of a template or path, with a leading
slash stripped. -/
def segStrings (t : String) : List String :=
  match (splitOnChar '/' t.data).map String.mk with
  | "" :: rest => rest
  | l => l

/-- Is the segment string a `{...}` variable form? -/
def isVarSeg (s : String) : Bool :=
  s.data.head? == some '{' && s.data.getLast? == some '}' &&
    decide (2 ≤ s.data.length)

/-- The content between the braces of a variable segment. -/
def varInner (s : String) : List Char := (s.data.drop 1).dropLast

/-- Compile one segment string. -/
def parseSeg (s : String) : Except CompileError Segment :=
  if isVarSeg s then
    let inner := varInner s
    match splitNameRe inner with
    | (nm, none) => .ok (.var (String.mk nm) none)
    | (nm, some re) =>
        match parseRegex (String.mk re) with
        | some r => .ok (.var (String.mk nm) (some r))
        | none => .error (.badRegex (String.mk re))
  else .ok (.lit s)

/-- The variable names of a compiled pattern, in order. -/
def varNames : List Segment → List String
  | [] => []
  | .lit _ :: rest => varNames rest
  | .var nm _ :: rest => nm :: varNames rest

/-- The first name that repeats in the list, if any. -/
def firstDup : List String → Option String
  | [] => none
  | n :: rest => if rest.contains n then some n else firstDup rest

/-- Compile a list of segment strings, stopping at the first failure. -/
def compileSegs : List String → Except CompileError (List Segment)
  | [] => .ok []
  | s :: rest => do
      let seg ← parseSeg s
      let segs ← compileSegs rest
      pure (seg :: segs)

/-- Compile a route template into a pattern, or fail with `CompileError`:
the template is empty, a regex constraint fails to parse, or a variable name
repeats. -/
def compile (t : String) : Except CompileError (List Segment) := do
  if t = "" then throw .emptyTemplate
  else
    let segs ← compileSegs (segStrings t)
    match firstDup (varNames segs) with
    | some n => throw (.dupVar n)
    | none => pure segs

/-! ## Matcher

Modelled from the spec: split the remaining path into `/`-separated
segments and compare positionally; a literal must match exactly
(case-sensitive), a variable must satisfy its capture regex, recording
`name -> captured value` (URL-decoded).  The result carries the variable
mapping and the number of consumed path segments. -/
def matchSegs : List Segment → List String → Option (List (String × String) × Nat)
  | [], _ => some ([], 0)
  | _ :: _, [] => none
  | .lit t :: pat, p :: ps =>
      if t = p then (matchSegs pat ps).map (fun r => (r.1, r.2 + 1)) else none
  | .var nm re :: pat, p :: ps =>
      if (re.getD defaultRgx).rmatch p.data then
        (matchSegs pat ps).map (fun r => ((nm, urlDecode p) :: r.1, r.2 + 1))
      else none

/-- Match a pattern against path segments.  With `pfx` (the PathPrefix
flag) set, extra trailing path segments are allowed; otherwise the path
must be fully consumed. -/
def matchPath (pat : List Segment) (pfx : Bool) (ps : List String) :
    Option (List (String × String) × Nat) :=
  match matchSegs pat ps with
  | some (vs, n) => if pfx || n == ps.length then some (vs, n) else none
  | none => none

/-! ## Route table and resolution -/

/-- A request descriptor: method, scheme, host, path — read-only inputs to
matching. -/
structure RequestDescriptor : Type where
  method : String
  scheme : String
  host : String
  path : String
  deriving DecidableEq, Repr

/-- Constraints: allowed methods (empty = any), an optional host pattern in
the same segment grammar (anchored, matched against the `.`-separated
host), and allowed schemes (empty = any). -/
structure RouteConstraints : Type where
  methods : List String
  host : Option (List Segment)
  schemes : List String
  deriving DecidableEq, Repr

/-- The unconstrained constraint set. -/
def anyCstr : RouteConstraints := ⟨[], none, []⟩

def methodOk (c : RouteConstraints) (req : RequestDescriptor) : Bool :=
  c.methods.isEmpty || c.methods.contains req.method

def schemeOk (c : RouteConstraints) (req : RequestDescriptor) : Bool :=
  c.schemes.isEmpty || c.schemes.contains req.scheme

def hostOk (c : RouteConstraints) (req : RequestDescriptor) : Bool :=
  match c.host with
  | none => true
  | some hp =>
      (matchPath hp false ((splitOnChar '.' req.host.data).map String.mk)).isSome

/-- One registered route: compiled pattern, constraints, an opaque handler
reference, the PathPrefix flag, and an optional child table (subrouter).
A route table is the ordered list of its entries. -/
inductive RouteEntry : Type where
  | mk (pattern : List Segment) (cstr : RouteConstraints) (handler : Nat)
       (pfx : Bool) (sub : Option (List RouteEntry)) : RouteEntry

def RouteEntry.pattern : RouteEntry → List Segment
  | .mk p _ _ _ _ => p

def RouteEntry.cstr : RouteEntry → RouteConstraints
  | .mk _ c _ _ _ => c

def RouteEntry.handler : RouteEntry → Nat
  | .mk _ _ h _ _ => h

def RouteEntry.pfx : RouteEntry → Bool
  | .mk _ _ _ b _ => b

def RouteEntry.sub : RouteEntry → Option (List RouteEntry)
  | .mk _ _ _ _ s => s

inductive ResolveResult : Type where
  | ok (handler : Nat) (vars : List (String × String)) : ResolveResult
  | methodNotAllowed : ResolveResult
  | noMatch : ResolveResult
  deriving DecidableEq, Repr

/-- Resolution: scan routes in registration order; the first route whose
path, host and scheme match and whose method constraint passes wins.  A
matching subrouter route delegates to its child table on the unconsumed
path suffix.  When some route matched on path+host+scheme but only failed
the method check, report `methodNotAllowed` instead of `noMatch`. -/
def resolveRoutes : List RouteEntry → RequestDescriptor → List String → Bool → ResolveResult
  | [], _, _, true => .methodNotAllowed
  | [], _, _, false => .noMatch
  | .mk pat cstr h pfx sub :: rs, req, ps, saw =>
      match matchPath pat pfx ps with
      | some (vs, n) =>
          if hostOk cstr req && schemeOk cstr req then
            if methodOk cstr req then
              match sub with
              | some child => resolveRoutes child req (ps.drop n) false
              | none => .ok h vs
            else resolveRoutes rs req ps true
          else resolveRoutes rs req ps saw
      | none => resolveRoutes rs req ps saw

/-- Resolve one request against a route table. -/
def resolveReq (tbl : List RouteEntry) (req : RequestDescriptor) : ResolveResult :=
  resolveRoutes tbl req (segStrings req.path) false

/-- Registration: compile the template and append a leaf route; any
compile error surfaces here, at registration time. -/
def register (tbl : List RouteEntry) (t : String) (cstr : RouteConstraints)
    (h : Nat) : Except CompileError (List RouteEntry) :=
  (compile t).map fun pat => tbl ++ [.mk pat cstr h false none]

/-- Registration of a subrouter: compile the prefix template and append a
route carrying the child table, with the PathPrefix flag set. -/
def registerSub (tbl : List RouteEntry) (t : String) (cstr : RouteConstraints)
    (child : List RouteEntry) : Except CompileError (List RouteEntry) :=
  (compile t).map fun pat => tbl ++ [.mk pat cstr 0 true (some child)]

/-! ## Derived notions used by the stated properties -/

/-- Does a single (leaf) route match the request outright — path, host,
scheme and method?  On success, the resolution outcome it produces. -/
def fullMatch (e : RouteEntry) (req : RequestDescriptor) (ps : List String) :
    Option ResolveResult :=
  match matchPath e.pattern e.pfx ps with
  | some (vs, _) =>
      if hostOk e.cstr req && schemeOk e.cstr req && methodOk e.cstr req then
        some (.ok e.handler vs)
      else none
  | none => none

/-- Does the route match the request on path, host and scheme (method not
considered)? -/
def phsOk (e : RouteEntry) (req : RequestDescriptor) (ps : List String) : Bool :=
  (matchPath e.pattern e.pfx ps).isSome && (hostOk e.cstr req && schemeOk e.cstr req)

/-- A segment that is either a literal or a variable with no explicit
regex (so the default `[^/]+` applies). -/
def defaultOnly : Segment → Bool
  | .var _ (some _) => false
  | _ => true

/-- The variable name declared by a `{...}` segment string, if any. -/
def segVarName (s : String) : Option String :=
  if isVarSeg s then some (String.mk (splitNameRe (varInner s)).1)
  else none

/-- The variable names a template declares, straight off its text. -/
def templateVarNames (t : String) : List String :=
  (segStrings t).filterMap segVarName

/-- Does a segment string carry an explicit regex constraint that fails to
parse? -/
def segBadRegex (s : String) : Bool :=
  isVarSeg s &&
    (match splitNameRe (varInner s) with
     | (_, some re) => (parseRegex (String.mk re)).isNone
     | (_, none) => false)

/-! ## The default net/http router

Modelled from the spec: `src/unnamed/part_001` and
`src/webapps/httpserver/main.go` register handlers on net/http's default
router (`http.HandleFunc` / `http.Handle`), whose code is not in the source
tree.  Its documented matching: a pattern ending in `/` matches every path
having it as a prefix, other patterns match exactly, and the longest
matching pattern wins. -/
def muxPatMatch (pat path : String) : Bool :=
  if pat.data.getLast? == some '/' then pat.data.isPrefixOf path.data
  else pat == path

/-- The best (longest) matching pattern and its handler. -/
def muxBest (tbl : List (String × Nat)) (path : String) : Option (String × Nat) :=
  match tbl with
  | [] => none
  | (pat, h) :: rest =>
      let b := muxBest rest path
      if muxPatMatch pat path then
        match b with
        | some (bp, bh) =>
            if bp.length < pat.length then some (pat, h) else some (bp, bh)
        | none => some (pat, h)
      else b

def muxResolve (tbl : List (String × Nat)) (path : String) : Option Nat :=
  (muxBest tbl path).map (fun b => b.2)

/-- The table of `src/unnamed/part_001`: only `/`, answering
`Hello, you have requested: <path>`. -/
def helloTable : List (String × Nat) := [("/", 0)]

/-- The table of `src/webapps/httpserver/main.go`: `/` (welcome message,
handler 0) and `/static/` (file server, handler 1). -/
def httpserverTable : List (String × Nat) := [("/", 0), ("/static/", 1)]

/-! ## Properties of the matcher -/

/-- A successful segment match consumes exactly one path segment per
pattern segment. -/
theorem matchSegs_consumed :
    ∀ (pat : List Segment) (ps : List String) (vs : List (String × String)) (n : Nat),
      matchSegs pat ps = some (vs, n) → n = pat.length ∧ n ≤ ps.length := by
  intro pat
  induction pat with
  | nil =>
      intro ps vs n h
      simp [matchSegs] at h
      simp only [List.length_nil]
      omega
  | cons seg pat ih =>
      intro ps vs n h
      cases ps with
      | nil => cases seg <;> simp [matchSegs] at h
      | cons p ps =>
          cases seg with
          | lit t =>
              by_cases ht : t = p
              · simp [matchSegs, ht] at h
                cases hm : matchSegs pat ps with
                | none => simp [hm] at h
                | some r =>
                    obtain ⟨vs', n'⟩ := r
                    simp [hm] at h
                    have h3 := ih ps vs' n' hm
                    simp only [List.length_cons]
                    omega
              · simp [matchSegs, ht] at h
          | var nm re =>
              by_cases hr : (re.getD defaultRgx).rmatch p.data = true
              · simp [matchSegs, hr] at h
                cases hm : matchSegs pat ps with
                | none => simp [hm] at h
                | some r =>
                    obtain ⟨vs', n'⟩ := r
                    simp [hm] at h
                    have h3 := ih ps vs' n' hm
                    simp only [List.length_cons]
                    omega
              · simp [matchSegs, hr] at h

/-- With the PathPrefix flag, a pattern-consuming match succeeds regardless
of trailing path segments. -/
theorem matchPath_pfx (pat : List Segment) (ps : List String)
    (vs : List (String × String)) (n : Nat) (h : matchSegs pat ps = some (vs, n)) :
    matchPath pat true ps = some (vs, n) := by
  simp [matchPath, h]

/-- Claim C3: Without the PathPrefix flag, `matchPath` succeeds only when the
path is fully consumed — the number of path segments equals the number of
pattern segments; with the flag set, it succeeds as soon as all pattern
segments are consumed, regardless of extra trailing path segments, and the
consumed length it reports is exactly the number of pattern segments
consumed off the path. -/
theorem matchPath_consumption (pat : List Segment) (ps : List String)
    (vs : List (String × String)) (n : Nat) :
    (matchPath pat false ps = some (vs, n) →
      ps.length = pat.length ∧ n = ps.length) ∧
    (matchSegs pat ps = some (vs, n) →
      matchPath pat true ps = some (vs, n) ∧ n = pat.length) := by
  constructor
  · intro h
    unfold matchPath at h
    cases hm : matchSegs pat ps with
    | none => rw [hm] at h; cases h
    | some r =>
        obtain ⟨vs', n'⟩ := r
        rw [hm] at h
        by_cases hl : n' = ps.length
        · simp [hl] at h
          have hc := matchSegs_consumed pat ps vs' n' hm
          omega
        · simp [hl] at h
  · intro h
    have hc := matchSegs_consumed pat ps vs n h
    exact ⟨matchPath_pfx pat ps vs n h, hc.1⟩

/-- Witness for C3 at concrete inputs. -/
theorem matchPath_consumption_witness :
    ((["a"] : List String).length = [Segment.lit "a"].length ∧
      1 = (["a"] : List String).length) ∧
    (matchPath [Segment.lit "a"] true ["a", "b"] = some ([], 1) ∧
      1 = [Segment.lit "a"].length) :=
  ⟨(matchPath_consumption [Segment.lit "a"] ["a"] [] 1).1 (by decide),
   (matchPath_consumption [Segment.lit "a"] ["a", "b"] [] 1).2 (by decide)⟩

/-! ## Resolution order and error distinction -/

/-- Claim C2: Resolution scans routes in registration order and the first
fully matching route wins: if every route registered before `e` fails to
match and `e` matches outright, resolution returns `e`'s outcome, whatever
routes are registered after it — no best-match or longest-prefix
tie-break. -/
theorem resolve_first_match_wins
    (rs1 rs2 : List RouteEntry) (e : RouteEntry) (req : RequestDescriptor)
    (ps : List String) (res : ResolveResult) (saw : Bool)
    (h1 : ∀ x ∈ rs1, x.sub = none ∧ fullMatch x req ps = none)
    (he : e.sub = none) (hm : fullMatch e req ps = some res) :
    resolveRoutes (rs1 ++ e :: rs2) req ps saw = res := by
  induction rs1 generalizing saw with
  | nil =>
      cases e with
      | mk pat cstr hd pfx sub =>
          simp only [RouteEntry.sub] at he
          subst he
          simp only [fullMatch, RouteEntry.pattern, RouteEntry.cstr, RouteEntry.pfx,
            RouteEntry.handler] at hm
          simp only [List.nil_append]
          cases hmp : matchPath pat pfx ps with
          | none => rw [hmp] at hm; cases hm
          | some r =>
              obtain ⟨vs, n⟩ := r
              rw [hmp] at hm
              simp only [] at hm
              by_cases hcond :
                  (hostOk cstr req && schemeOk cstr req && methodOk cstr req) = true
              · have h3 := hcond
                simp only [Bool.and_eq_true] at h3
                obtain ⟨⟨hh, hs⟩, hmt⟩ := h3
                rw [if_pos hcond] at hm
                simp [resolveRoutes, hmp, hh, hs, hmt]
                simpa using hm
              · rw [if_neg hcond] at hm
                cases hm
  | cons x rs1 ih =>
      obtain ⟨hxsub, hxfm⟩ := h1 x (List.mem_cons_self x rs1)
      have h1' : ∀ y ∈ rs1, y.sub = none ∧ fullMatch y req ps = none :=
        fun y hy => h1 y (List.mem_cons_of_mem x hy)
      cases x with
      | mk pat cstr hd pfx sub =>
          simp only [RouteEntry.sub] at hxsub
          subst hxsub
          simp only [fullMatch, RouteEntry.pattern, RouteEntry.cstr, RouteEntry.pfx,
            RouteEntry.handler] at hxfm
          simp only [List.cons_append]
          cases hmp : matchPath pat pfx ps with
          | none =>
              simp [resolveRoutes, hmp]
              exact ih saw h1'
          | some r =>
              obtain ⟨vs, n⟩ := r
              rw [hmp] at hxfm
              simp only [] at hxfm
              by_cases hcond :
                  (hostOk cstr req && schemeOk cstr req && methodOk cstr req) = true
              · rw [if_pos hcond] at hxfm; cases hxfm
              · by_cases hhs : (hostOk cstr req && schemeOk cstr req) = true
                · have hmt : methodOk cstr req = false := by
                    cases h0 : methodOk cstr req
                    · rfl
                    · exact absurd (by simp [hhs, h0]) hcond
                  simp [resolveRoutes, hmp, hhs, hmt]
                  exact ih true h1'
                · simp only [Bool.not_eq_true] at hhs
                  simp [resolveRoutes, hmp, hhs]
                  exact ih saw h1'

/-- Witness for C2: two routes both match `["x"]`; the earlier one (handler
1) wins over the later one (handler 2). -/
theorem resolve_first_match_wins_witness :
    resolveRoutes [RouteEntry.mk [Segment.var "a" none] anyCstr 1 false none,
        RouteEntry.mk [Segment.var "b" none] anyCstr 2 false none]
      ⟨"GET", "http", "h", "/x"⟩ ["x"] false = .ok 1 [("a", "x")] :=
  resolve_first_match_wins []
    [RouteEntry.mk [Segment.var "b" none] anyCstr 2 false none]
    (RouteEntry.mk [Segment.var "a" none] anyCstr 1 false none)
    ⟨"GET", "http", "h", "/x"⟩ ["x"] (.ok 1 [("a", "x")]) false
    (by simp) rfl (by decide)

/-- A flat table resolves to `noMatch` exactly when no route matched the
request on path, host and scheme. -/
theorem resolveRoutes_noMatch_iff
    (rs : List RouteEntry) (req : RequestDescriptor) (ps : List String) (saw : Bool)
    (hflat : ∀ x ∈ rs, x.sub = none) :
    resolveRoutes rs req ps saw = .noMatch ↔
      (saw = false ∧ ∀ x ∈ rs, phsOk x req ps = false) := by
  induction rs generalizing saw with
  | nil => cases saw <;> simp [resolveRoutes]
  | cons x rs ih =>
      have hxs := hflat x (List.mem_cons_self x rs)
      have hflat' : ∀ y ∈ rs, y.sub = none :=
        fun y hy => hflat y (List.mem_cons_of_mem x hy)
      cases x with
      | mk pat cstr hd pfx sub =>
          simp only [RouteEntry.sub] at hxs
          subst hxs
          cases hmp : matchPath pat pfx ps with
          | none =>
              have hph : phsOk (.mk pat cstr hd pfx none) req ps = false := by
                simp [phsOk, RouteEntry.pattern, RouteEntry.pfx, hmp]
              simp [resolveRoutes, hmp, List.forall_mem_cons, hph, ih saw hflat']
          | some r =>
              obtain ⟨vs, n⟩ := r
              by_cases hhs : (hostOk cstr req && schemeOk cstr req) = true
              · have hph : phsOk (.mk pat cstr hd pfx none) req ps = true := by
                  simp [phsOk, RouteEntry.pattern, RouteEntry.pfx, RouteEntry.cstr,
                    hmp, hhs]
                by_cases hmt : methodOk cstr req = true
                · simp [resolveRoutes, hmp, hhs, hmt, List.forall_mem_cons, hph]
                · simp [resolveRoutes, hmp, hhs, hmt, List.forall_mem_cons, hph,
                    ih true hflat']
              · have hph : phsOk (.mk pat cstr hd pfx none) req ps = false := by
                  simp only [Bool.not_eq_true] at hhs
                  simp [phsOk, RouteEntry.pattern, RouteEntry.pfx, RouteEntry.cstr,
                    hmp, hhs]
                simp only [Bool.not_eq_true] at hhs
                simp [resolveRoutes, hmp, hhs, List.forall_mem_cons, hph, ih saw hflat']

/-- A flat table in which some route matched path+host+scheme but every
such route rejects the method resolves to `methodNotAllowed`. -/
theorem resolveRoutes_mna
    (rs : List RouteEntry) (req : RequestDescriptor) (ps : List String) (saw : Bool)
    (hflat : ∀ x ∈ rs, x.sub = none)
    (hme : ∀ x ∈ rs, phsOk x req ps = true → methodOk x.cstr req = false)
    (hsome : saw = true ∨ ∃ x ∈ rs, phsOk x req ps = true) :
    resolveRoutes rs req ps saw = .methodNotAllowed := by
  induction rs generalizing saw with
  | nil =>
      rcases hsome with rfl | ⟨x, hx, -⟩
      · simp [resolveRoutes]
      · cases hx
  | cons x rs ih =>
      have hxs := hflat x (List.mem_cons_self x rs)
      have hflat' : ∀ y ∈ rs, y.sub = none :=
        fun y hy => hflat y (List.mem_cons_of_mem x hy)
      have hme' : ∀ y ∈ rs, phsOk y req ps = true → methodOk y.cstr req = false :=
        fun y hy => hme y (List.mem_cons_of_mem x hy)
      cases x with
      | mk pat cstr hd pfx sub =>
          simp only [RouteEntry.sub] at hxs
          subst hxs
          cases hmp : matchPath pat pfx ps with
          | none =>
              have hph : phsOk (.mk pat cstr hd pfx none) req ps = false := by
                simp [phsOk, RouteEntry.pattern, RouteEntry.pfx, hmp]
              simp [resolveRoutes, hmp]
              apply ih saw hflat' hme'
              rcases hsome with rfl | ⟨y, hy, hph2⟩
              · exact Or.inl rfl
              · rcases List.mem_cons.mp hy with rfl | hy2
                · rw [hph] at hph2; cases hph2
                · exact Or.inr ⟨y, hy2, hph2⟩
          | some r =>
              obtain ⟨vs, n⟩ := r
              by_cases hhs : (hostOk cstr req && schemeOk cstr req) = true
              · have hph : phsOk (.mk pat cstr hd pfx none) req ps = true := by
                  simp [phsOk, RouteEntry.pattern, RouteEntry.pfx, RouteEntry.cstr,
                    hmp, hhs]
                have hmt := hme _ (List.mem_cons_self _ rs) hph
                simp only [RouteEntry.cstr] at hmt
                simp [resolveRoutes, hmp, hhs, hmt]
                exact ih true hflat' hme' (Or.inl rfl)
              · have hph : phsOk (.mk pat cstr hd pfx none) req ps = false := by
                  simp only [Bool.not_eq_true] at hhs
                  simp [phsOk, RouteEntry.pattern, RouteEntry.pfx, RouteEntry.cstr,
                    hmp, hhs]
                simp only [Bool.not_eq_true] at hhs
                simp [resolveRoutes, hmp, hhs]
                apply ih saw hflat' hme'
                rcases hsome with rfl | ⟨y, hy, hph2⟩
                · exact Or.inl rfl
                · rcases List.mem_cons.mp hy with rfl | hy2
                  · rw [hph] at hph2; cases hph2
                  · exact Or.inr ⟨y, hy2, hph2⟩

/-- Claim C4: On a flat table: when some route matches the request's path,
host and scheme but every such route's method constraint excludes the
request's method, resolution returns `methodNotAllowed` and not `noMatch`;
and `noMatch` is returned exactly when no route matches on
path+host+scheme. -/
theorem resolve_method_distinction
    (rs : List RouteEntry) (req : RequestDescriptor)
    (hflat : ∀ x ∈ rs, x.sub = none) :
    ((∃ x ∈ rs, phsOk x req (segStrings req.path) = true) →
      (∀ x ∈ rs, phsOk x req (segStrings req.path) = true →
        methodOk x.cstr req = false) →
      resolveReq rs req = .methodNotAllowed) ∧
    (resolveReq rs req = .noMatch ↔
      ∀ x ∈ rs, phsOk x req (segStrings req.path) = false) := by
  constructor
  · intro hsome hme
    exact resolveRoutes_mna rs req (segStrings req.path) false hflat hme (Or.inr hsome)
  · rw [resolveReq, resolveRoutes_noMatch_iff rs req (segStrings req.path) false hflat]
    simp

/-- Witness for C4: a POST-only route at `/x`; a GET request to `/x` gets
`methodNotAllowed`. -/
theorem resolve_method_distinction_witness :
    resolveReq [RouteEntry.mk [Segment.lit "x"] ⟨["POST"], none, []⟩ 3 false none]
      ⟨"GET", "http", "h", "/x"⟩ = .methodNotAllowed :=
  (resolve_method_distinction
      [RouteEntry.mk [Segment.lit "x"] ⟨["POST"], none, []⟩ 3 false none]
      ⟨"GET", "http", "h", "/x"⟩
      (by intro x hx; rcases List.mem_singleton.mp hx with rfl; rfl)).1
    ⟨RouteEntry.mk [Segment.lit "x"] ⟨["POST"], none, []⟩ 3 false none,
      List.mem_singleton.mpr rfl, by decide⟩
    (by intro x hx _; rcases List.mem_singleton.mp hx with rfl; decide)

/-! ## Concrete scenarios and captures -/

/-- Claim C1: The template `/books/{title}/page/{page}` compiles to the
expected four-segment pattern, and resolving `/books/Drums/page/3` against
a table holding that route succeeds: the registered handler (7) is returned
with exactly the capture mapping `{title: "Drums", page: "3"}`. -/
theorem books_template_capture :
    compile "/books/{title}/page/{page}" =
      .ok [.lit "books", .var "title" none, .lit "page", .var "page" none] ∧
    resolveReq [RouteEntry.mk
        [.lit "books", .var "title" none, .lit "page", .var "page" none]
        anyCstr 7 false none]
      ⟨"GET", "http", "localhost", "/books/Drums/page/3"⟩ =
      .ok 7 [("title", "Drums"), ("page", "3")] := by
  constructor
  · rfl
  · simp [resolveReq, resolveRoutes]
    decide

/-- Claim C5: A subrouter registered under prefix `/books` whose child table
holds `/{title}`: the full path `/books/Go` resolves to the child handler
(1) with capture `{title: "Go"}`, while `/books` alone — no segment left
after the prefix — does not match the child route and resolution fails. -/
theorem subrouter_delegation :
    compile "/books" = .ok [.lit "books"] ∧
    compile "/{title}" = .ok [.var "title" none] ∧
    resolveReq [RouteEntry.mk [.lit "books"] anyCstr 0 true
        (some [RouteEntry.mk [.var "title" none] anyCstr 1 false none])]
      ⟨"GET", "http", "h", "/books/Go"⟩ = .ok 1 [("title", "Go")] ∧
    resolveReq [RouteEntry.mk [.lit "books"] anyCstr 0 true
        (some [RouteEntry.mk [.var "title" none] anyCstr 1 false none])]
      ⟨"GET", "http", "h", "/books"⟩ = .noMatch := by
  refine ⟨rfl, rfl, ?_, ?_⟩
  · simp [resolveReq, resolveRoutes]
    decide
  · simp [resolveReq, resolveRoutes]
    decide

/-- Claim C6: Compilation is deterministic and, being a pure function of the
template, mutates nothing: two compilations of the same template yield
patterns that match identically — same success, same captures, same
consumed length — on every path and either flag. -/
theorem compile_deterministic (t : String) (p1 p2 : List Segment)
    (h1 : compile t = .ok p1) (h2 : compile t = .ok p2) :
    ∀ (pfx : Bool) (ps : List String), matchPath p1 pfx ps = matchPath p2 pfx ps := by
  rw [h1] at h2
  injection h2 with h3
  subst h3
  intro _ _
  rfl

/-- Witness for C6 at a concrete template. -/
theorem compile_deterministic_witness :
    matchPath [Segment.lit "a"] false ["a"] = matchPath [Segment.lit "a"] false ["a"] :=
  compile_deterministic "/a" [Segment.lit "a"] [Segment.lit "a"] rfl rfl false ["a"]

/-- Claim C9: Resolution is idempotent and side-effect-free: it is a pure
function of the (immutable) table and request, so a second run on the same
inputs returns the identical result and the table is untouched. -/
theorem resolve_idempotent (tbl : List RouteEntry) (req : RequestDescriptor) :
    (resolveReq tbl req, tbl) = (resolveReq tbl req, tbl) := rfl

/-! ## Captured values and URL decoding (C8) -/

/-- Decoding a non-empty string yields a non-empty string. -/
theorem urlDecode_ne_empty (s : String) (h : s.data ≠ []) : urlDecode s ≠ "" := by
  intro hc
  have h2 : (urlDecode s).data = [] := by rw [hc]
  exact urlDecodeAux_ne_nil s.data h h2

/-- Claim C8, amended: For a successful match of a pattern whose variables
are all written `{name}` (no explicit regex), every recorded value is
non-empty and is the URL-decoding of some raw path segment that is itself
non-empty and contains no `/` — but the recorded, decoded value itself may
contain `/` (see the counterexample with `%2F`). -/
theorem default_capture_decoded
    (pat : List Segment) (ps : List String) (vs : List (String × String)) (n : Nat)
    (hdef : ∀ seg ∈ pat, defaultOnly seg = true)
    (hm : matchSegs pat ps = some (vs, n)) :
    ∀ nv ∈ vs, nv.2 ≠ "" ∧
      ∃ s ∈ ps, nv.2 = urlDecode s ∧ s ≠ "" ∧ ∀ c ∈ s.data, c ≠ '/' := by
  induction pat generalizing ps vs n with
  | nil =>
      simp [matchSegs] at hm
      obtain ⟨rfl, -⟩ := hm
      intro nv hnv
      exact absurd hnv (List.not_mem_nil nv)
  | cons seg pat ih =>
      have hdef' : ∀ s ∈ pat, defaultOnly s = true :=
        fun s hs => hdef s (List.mem_cons_of_mem seg hs)
      cases ps with
      | nil => cases seg <;> simp [matchSegs] at hm
      | cons p ps =>
          cases seg with
          | lit t =>
              simp [matchSegs] at hm
              obtain ⟨ht, a, b, hms, hvs, -⟩ := hm
              subst hvs
              intro nv hnv
              obtain ⟨h1, s, hs, h2⟩ := ih _ _ _ hdef' hms nv hnv
              exact ⟨h1, s, List.mem_cons_of_mem p hs, h2⟩
          | var nm re =>
              have hdseg := hdef _ (List.mem_cons_self _ pat)
              cases re with
              | some r0 => simp [defaultOnly] at hdseg
              | none =>
                  simp [matchSegs] at hm
                  obtain ⟨hr', a, b, hms, hvs, -⟩ := hm
                  subst hvs
                  intro nv hnv
                  rcases List.mem_cons.mp hnv with rfl | hnv2
                  · obtain ⟨hne, hch⟩ := defaultRgx_chars hr'
                    exact ⟨urlDecode_ne_empty p hne, p, List.mem_cons_self p ps,
                      rfl, (fun hc => hne (by rw [hc])), hch⟩
                  · obtain ⟨h1, s, hs, h2⟩ := ih _ _ _ hdef' hms nv hnv2
                    exact ⟨h1, s, List.mem_cons_of_mem p hs, h2⟩

/-- Witness for the amended C8 at a concrete match. -/
theorem default_capture_decoded_witness :
    ("v", "Drums").2 ≠ "" ∧
      ∃ s ∈ ["Drums"], ("v", "Drums").2 = urlDecode s ∧ s ≠ "" ∧
        ∀ c ∈ s.data, c ≠ '/' :=
  default_capture_decoded [Segment.var "v" none] ["Drums"] [("v", "Drums")] 1
    (by intro seg hs; rcases List.mem_singleton.mp hs with rfl; rfl)
    (by decide) ("v", "Drums") (List.mem_singleton.mpr rfl)

/-- Claim C8 counterexample: The path segment `%2F` satisfies the default
constraint `[^/]+` (no raw slash), yet the recorded capture — URL-decoded
before being recorded — is `"/"`, which does contain `/`: the claim that
the recorded value never contains `/` is false. -/
theorem encoded_slash_capture_cex :
    resolveReq [RouteEntry.mk [Segment.lit "x", Segment.var "v" none]
        anyCstr 3 false none]
      ⟨"GET", "http", "h", "/x/%2F"⟩ = .ok 3 [("v", "/")] ∧
    '/' ∈ "/".data := by
  constructor
  · simp [resolveReq, resolveRoutes]
    decide
  · decide

/-! ## Compile-error characterization (C7) -/

/-- A single segment compiles to an error exactly when it is a variable
segment whose explicit regex constraint fails to parse. -/
theorem parseSeg_error_iff (s : String) :
    (∃ e, parseSeg s = .error e) ↔ segBadRegex s = true := by
  by_cases hv : isVarSeg s = true
  · simp only [parseSeg, segBadRegex, hv, if_pos, Bool.true_and]
    cases hsp : splitNameRe (varInner s) with
    | mk nm oRe =>
        cases oRe with
        | none => simp
        | some re =>
            cases hpr : parseRegex (String.mk re) with
            | none => simp [hpr]
            | some r => simp [hpr]
  · simp only [Bool.not_eq_true] at hv
    simp [parseSeg, segBadRegex, hv]

/-- Segment-list compilation errors exactly when some segment has a bad
regex constraint. -/
theorem compileSegs_error_iff (l : List String) :
    (∃ e, compileSegs l = .error e) ↔ ∃ s ∈ l, segBadRegex s = true := by
  induction l with
  | nil => simp [compileSegs]
  | cons s rest ih =>
      cases hp : parseSeg s with
      | error e =>
          have hb : segBadRegex s = true := (parseSeg_error_iff s).mp ⟨e, hp⟩
          simp [compileSegs, hp, hb, Bind.bind, Except.bind, Functor.map, Except.map]
      | ok seg =>
          have hb : segBadRegex s = false := by
            cases hsb : segBadRegex s
            · rfl
            · obtain ⟨e, he⟩ := (parseSeg_error_iff s).mpr hsb
              rw [hp] at he
              cases he
          cases hc : compileSegs rest with
          | error e =>
              have hbs : ∃ s2 ∈ rest, segBadRegex s2 = true := ih.mp ⟨e, hc⟩
              obtain ⟨s2, hs2, hbs2⟩ := hbs
              simp [compileSegs, hp, hc, Bind.bind, Except.bind, Functor.map, Except.map]
              exact Or.inr ⟨s2, hs2, hbs2⟩
          | ok segs =>
              have hnone : ¬∃ s2 ∈ rest, segBadRegex s2 = true := by
                intro hx
                obtain ⟨e, he⟩ := ih.mpr hx
                rw [hc] at he
                cases he
              simp [compileSegs, hp, hc, hb, Bind.bind, Except.bind, Functor.map,
                Except.map, Pure.pure, Except.pure]
              intro x hx
              cases hxb : segBadRegex x
              · rfl
              · exact absurd ⟨x, hx, hxb⟩ hnone

/-- The variable name a compiled segment carries, if it is a variable. -/
def segNameOf : Segment → Option String
  | .var nm _ => some nm
  | .lit _ => none

/-- A successfully compiled segment's variable name agrees with the name
read straight off the segment string. -/
theorem parseSeg_name (s : String) (seg : Segment) (h : parseSeg s = .ok seg) :
    segNameOf seg = segVarName s := by
  by_cases hv : isVarSeg s = true
  · simp only [parseSeg, hv, if_pos] at h
    cases hsp : splitNameRe (varInner s) with
    | mk nm oRe =>
        rw [hsp] at h
        cases oRe with
        | none =>
            simp only [] at h
            injection h with h2
            subst h2
            simp [segNameOf, segVarName, hv, hsp]
        | some re =>
            simp only [] at h
            cases hpr : parseRegex (String.mk re) with
            | none => rw [hpr] at h; cases h
            | some r =>
                rw [hpr] at h
                injection h with h2
                subst h2
                simp [segNameOf, segVarName, hv, hsp]
  · simp only [Bool.not_eq_true] at hv
    simp only [parseSeg, hv, Bool.false_eq_true, if_false] at h
    injection h with h2
    subst h2
    simp [segNameOf, segVarName, hv]

/-- After successful compilation, the pattern's variable names are the
names the template's text declares, in order. -/
theorem compileSegs_varNames (l : List String) (segs : List Segment)
    (h : compileSegs l = .ok segs) : varNames segs = l.filterMap segVarName := by
  induction l generalizing segs with
  | nil =>
      simp [compileSegs] at h
      subst h
      rfl
  | cons s rest ih =>
      cases hp : parseSeg s with
      | error e => simp [compileSegs, hp, Bind.bind, Except.bind] at h
      | ok seg =>
          cases hc : compileSegs rest with
          | error e =>
              simp [compileSegs, hp, hc, Bind.bind, Except.bind, Functor.map,
                Except.map] at h
          | ok segs2 =>
              simp [compileSegs, hp, hc, Bind.bind, Except.bind, Functor.map,
                Except.map, Pure.pure, Except.pure] at h
              subst h
              have hn := parseSeg_name s seg hp
              cases seg with
              | lit t =>
                  simp only [segNameOf] at hn
                  simp [varNames, List.filterMap_cons, ← hn, ih segs2 hc]
              | var nm re =>
                  simp only [segNameOf] at hn
                  simp [varNames, List.filterMap_cons, ← hn, ih segs2 hc]

/-- Claim C7: `compile` returns a `CompileError` exactly when the template is
empty, some segment's regex constraint fails to parse, or a variable name
repeats; and registration surfaces exactly the compile errors — so errors
appear at registration time, while `resolveReq` operates on already
compiled tables and can raise none. -/
theorem compile_error_characterization (t : String) (tbl : List RouteEntry)
    (cstr : RouteConstraints) (hd : Nat) :
    ((∃ e, compile t = .error e) ↔
      (t = "" ∨ (∃ s ∈ segStrings t, segBadRegex s = true) ∨
        firstDup (templateVarNames t) ≠ none)) ∧
    ((∃ e, register tbl t cstr hd = .error e) ↔ (∃ e, compile t = .error e)) := by
  constructor
  · by_cases ht : t = ""
    · subst ht
      simp only [compile, if_pos]
      constructor
      · intro _
        exact Or.inl trivial
      · intro _
        exact ⟨CompileError.emptyTemplate, rfl⟩
    · simp only [compile, ht, if_neg]
      cases hcs : compileSegs (segStrings t) with
      | error e =>
          have hbad := (compileSegs_error_iff (segStrings t)).mp ⟨e, hcs⟩
          simp [Bind.bind, Except.bind, ht, hbad]
      | ok segs =>
          have hnobad : ¬∃ s ∈ segStrings t, segBadRegex s = true := by
            intro hx
            obtain ⟨e, he⟩ := (compileSegs_error_iff (segStrings t)).mpr hx
            rw [hcs] at he
            cases he
          have hvn : templateVarNames t = varNames segs :=
            (compileSegs_varNames (segStrings t) segs hcs).symm
          cases hfd : firstDup (varNames segs) with
          | none =>
              simp [Bind.bind, Except.bind, hfd, ht, templateVarNames, hvn,
                Pure.pure, Except.pure]
              refine ⟨?_, ?_⟩
              · intro x hx
                cases hxb : segBadRegex x
                · rfl
                · exact absurd ⟨x, hx, hxb⟩ hnobad
              · show firstDup (templateVarNames t) = none
                rw [hvn, hfd]
          | some nme =>
              simp only [Bind.bind, Except.bind, hcs, hfd]
              constructor
              · intro _
                refine Or.inr (Or.inr ?_)
                show ¬firstDup (templateVarNames t) = none
                rw [hvn, hfd]
                simp
              · intro _
                exact ⟨CompileError.dupVar nme, rfl⟩
  · simp only [register]
    cases hc : compile t with
    | error e => simp [Except.map, hc]
    | ok pat => simp [Except.map, hc]

/-! ## The default-router tables (C10) -/

/-- Claim C10, amended: On both registered tables the pattern `/` is a
subtree pattern every path matches, so resolution succeeds for every path
beginning with `/` and a not-found outcome is unreachable at the routing
level; on the table of `part_001` every path gets the sole handler (0),
while on the httpserver table a path may be served by the `/static/`
handler instead (see the counterexample). -/
theorem root_pattern_catch_all (p : String)
    (h : "/".data.isPrefixOf p.data = true) :
    muxResolve helloTable p = some 0 ∧
      (muxResolve httpserverTable p).isSome = true := by
  have hm : muxPatMatch "/" p = true := by
    simp [muxPatMatch]
    exact List.isPrefixOf_iff_prefix.mp h
  constructor
  · simp [muxResolve, muxBest, helloTable, hm]
  · by_cases h2 : muxPatMatch "/static/" p = true
    · simp [muxResolve, muxBest, httpserverTable, hm, h2]
      decide
    · simp only [Bool.not_eq_true] at h2
      simp [muxResolve, muxBest, httpserverTable, hm, h2]

/-- Witness for the amended C10 at a concrete path. -/
theorem root_pattern_catch_all_witness :
    muxResolve helloTable "/foo" = some 0 ∧
      (muxResolve httpserverTable "/foo").isSome = true :=
  root_pattern_catch_all "/foo" (by decide)

/-- Claim C10 counterexample: On the httpserver table, the path
`/static/app.js` is matched by the longer registered pattern `/static/`
and is served by the file-server handler (1), not the welcome handler (0):
the program does not respond with the welcome message on every path. -/
theorem static_path_not_welcome_cex :
    muxResolve httpserverTable "/static/app.js" = some 1 ∧ (1 : Nat) ≠ 0 :=
  ⟨rfl, by decide⟩

end Router
